import Mathlib

/-!
Verification of the mon2y_rs MCTS engine (src/mon2y/{tree,node,mcts,weighted_random}.rs)
against its natural-language specification.

Shallow embedding conventions:
* f64 values that only undergo field arithmetic are modelled as rationals (ℚ);
  the transcendental helpers f64::sqrt and f64::ln are abstracted as function
  parameters `sq` and `lq` so every definition stays computable.
* `Arc<RwLock<Node>>` sharing is modelled by a store: a list of nodes indexed by
  natural-number ids. Allocating a fresh `Arc` appends a node to the store.
  Locks always succeed in this sequential model (spec section 5 leaves
  concurrent interleavings out of the per-call functional behaviour).
* Panics and unbounded recursion are modelled with Option results and explicit
  fuel; `none` means the Rust code would panic (or the fuel ran out).
* Random draws are modelled by consuming a stream (List Nat); `gen_range(0..n)`
  takes the head `r` and uses `r % n` (panics when `n = 0`).
-/

namespace Mon2y

/-- Actor from src/mon2y/game.rs: either a player id (u8) or a weighted list of
game actions (chance outcomes); weights are the u32 weights used by
node.rs and weighted_random.rs. -/
inductive Actor (α : Type) where
  | Player (id : Nat)
  | GameAction (outcomes : List (α × Nat))
deriving DecidableEq

/-- Game contract from src/mon2y/game.rs: the `State`/`Action` trait pair,
bundled as explicit functions over state type σ and action type α. -/
structure Game (σ α : Type) where
  execute : α → σ → σ
  permitted_actions : σ → List α
  next_actor : σ → Actor α
  terminal : σ → Bool
  reward : σ → List ℚ

/-- UCB value as computed in node.rs best_pick: either f64::INFINITY (the
unvisited-child case) or a finite value. -/
inductive Ucb where
  | inf
  | val (q : ℚ)
deriving DecidableEq

/-- CachedUcb from src/mon2y/node.rs. -/
structure CachedUcb where
  ucb : Ucb
  value_sum : ℚ
  visit_count : Nat
  parent_visit_count : Nat
deriving DecidableEq

/-- Payload of an Expanded node (src/mon2y/node.rs, Node::Expanded).
Children map actions to store ids of child nodes. -/
structure NodeData (σ α : Type) where
  state : σ
  children : List (α × Nat)
  visit_count : Nat
  value_sum : ℚ
  cached_ucb : Option CachedUcb
  cached_fully_explored : Option Bool
  game_action : Bool
  weight : Option Nat
deriving DecidableEq

/-- Node from src/mon2y/node.rs: Expanded or Placeholder. -/
inductive Node (σ α : Type) where
  | Expanded (d : NodeData σ α)
  | Placeholder (weight : Option Nat)
deriving DecidableEq

/-- Store of nodes: models the heap of `Arc<RwLock<Node>>` cells; an id is an
index into this list. -/
abbrev Store (σ α : Type) := List (Node σ α)

/-- Dereference an id. Out-of-range ids never arise from allocation; they
default to a Placeholder. -/
def getN (st : Store σ α) (i : Nat) : Node σ α :=
  (st.get? i).getD (Node.Placeholder none)

/-- Overwrite the node stored at id `i`. -/
def setN (st : Store σ α) (i : Nat) (n : Node σ α) : Store σ α :=
  st.set i n

/-- Node::visit_count (node.rs:79): Placeholder counts as 0. -/
def Node.visit_count : Node σ α → Nat
  | .Expanded d => d.visit_count
  | .Placeholder _ => 0

/-- Node::value_sum (node.rs:93): Placeholder counts as 0.0. -/
def Node.value_sum : Node σ α → ℚ
  | .Expanded d => d.value_sum
  | .Placeholder _ => 0

/-- Node::game_action (node.rs:86). -/
def Node.game_action : Node σ α → Bool
  | .Expanded d => d.game_action
  | .Placeholder _ => false

/-- Node::weight (node.rs:100): `weight.unwrap_or(1)`. -/
def Node.weight : Node σ α → Nat
  | .Expanded d => d.weight.getD 1
  | .Placeholder w => w.getD 1

/-- Node::state (node.rs:193) returns the state of an Expanded node and panics
on a Placeholder; the panic is modelled by `none`. -/
def Node.state? : Node σ α → Option σ
  | .Expanded d => some d.state
  | .Placeholder _ => none

/-- Check for the Expanded variant. -/
def Node.isExpanded : Node σ α → Bool
  | .Expanded _ => true
  | .Placeholder _ => false

/-- Node::visit (node.rs:107): increment visit_count, add the reward to
value_sum and clear the cached fully-explored flag; visiting a Placeholder
only logs a warning and changes nothing. -/
def Node.visit : Node σ α → ℚ → Node σ α
  | .Expanded d, r =>
      .Expanded { d with
        visit_count := d.visit_count + 1
        value_sum := d.value_sum + r
        cached_fully_explored := none }
  | .Placeholder w, _ => .Placeholder w

/-- Result of weighted_random (src/mon2y/weighted_random.rs): the returned
item, the panic of `gen_range(0..0)` on an empty range (total weight zero), or
the trailing `unreachable!()`. -/
inductive WrResult (α : Type) where
  | ok (a : α)
  | panicEmptyRange
  | panicUnreachable
deriving DecidableEq

/-- Loop of weighted_random (weighted_random.rs:6-12): accumulate weights and
return the first item whose cumulative weight exceeds the draw. -/
def weighted_random_loop : List (α × Nat) → Nat → Nat → WrResult α
  | [], _, _ => .panicUnreachable
  | (item, w) :: rest, cum, random =>
      if cum + w > random then .ok item
      else weighted_random_loop rest (cum + w) random

/-- Total weight of the items (weighted_random.rs:4). -/
def totalWeight (items : List (α × Nat)) : Nat :=
  (items.map Prod.snd).sum

/-- weighted_random (weighted_random.rs:3-14). `rng` is the raw random draw;
`gen_range(0..total)` is modelled as `rng % total` and panics when the total
weight is zero. -/
def weighted_random (items : List (α × Nat)) (rng : Nat) : WrResult α :=
  let total := totalWeight items
  if total = 0 then .panicEmptyRange
  else weighted_random_loop items 0 (rng % total)

/-- Sum of the weights of the first `i` items: the lower end of item `i`'s
cumulative-weight interval. -/
def cumBefore (items : List (α × Nat)) (i : Nat) : Nat :=
  ((items.take i).map Prod.snd).sum

/-- Association-list lookup, modelling `HashMap::get` on the children map
(children are kept in insertion order in this model; no claim depends on the
hash map's iteration order). -/
def alookup [DecidableEq α] : List (α × Nat) → α → Option Nat
  | [], _ => none
  | (b, v) :: rest, a => if a = b then some v else alookup rest a

/-- Association-list insert, modelling `HashMap::insert` on the children map:
replaces the binding of an existing key, appends a missing key. -/
def ainsert [DecidableEq α] : List (α × Nat) → α → Nat → List (α × Nat)
  | [], a, v => [(a, v)]
  | (b, w) :: rest, a, v =>
      if a = b then (a, v) :: rest else (b, w) :: ainsert rest a v

/-- Child slots of a freshly created Expanded node (node.rs
create_expanded_node, lines 385-406): one Placeholder per permitted action
(no weight) for a Player actor, one weighted Placeholder per outcome for a
GameAction actor. -/
def childSpecs (g : Game σ α) (s : σ) : List (α × Option Nat) :=
  match g.next_actor s with
  | .Player _ => (g.permitted_actions s).map (fun a => (a, none))
  | .GameAction outs => outs.map (fun aw => (aw.1, some aw.2))

/-- Whether create_expanded_node marks the node as a game-action (chance)
node (node.rs:385-406). -/
def isGameActionB (g : Game σ α) (s : σ) : Bool :=
  match g.next_actor s with
  | .Player _ => false
  | .GameAction _ => true

/-- create_expanded_node (node.rs:370-418): allocate one Placeholder cell per
child slot, then the Expanded node itself with zeroed statistics and empty
caches. Returns the new store and the id of the created node. -/
def createExpandedNode (g : Game σ α) (st : Store σ α) (s : σ)
    (weight : Option Nat) : Store σ α × Nat :=
  let specs := childSpecs g s
  let base := st.length
  let children := specs.enum.map (fun p => (p.2.1, base + p.1))
  let st' := st ++ specs.map (fun p => Node.Placeholder p.2)
  (st' ++ [.Expanded ⟨s, children, 0, 0, none, none, isGameActionB g s, weight⟩],
   st'.length)

/-- Node::expansion (node.rs:177-191): build the Expanded replacement of a
Placeholder reached by `action` from `parent_state`, keeping its weight.
Modelled at the call site inside Tree::expansion below. -/
def placeholderExpansion (g : Game σ α) (st : Store σ α) (action : α)
    (parent_state : σ) (weight : Option Nat) : Store σ α × Nat :=
  createExpandedNode g st (g.execute action parent_state) weight

/-- Node::insert_child (node.rs:200-206) on the node stored at `i`: wrap the
child in a fresh cell (already allocated by the caller in this model) and
insert it into the children map. Inserting into a Placeholder panics in the
source; call sites below only reach Expanded nodes. -/
def insertChildAt [DecidableEq α] (st : Store σ α) (i : Nat) (a : α)
    (childId : Nat) : Store σ α :=
  match getN st i with
  | .Expanded d => setN st i (.Expanded { d with children := ainsert d.children a childId })
  | .Placeholder _ => st

/-- Loop body of Tree::expansion (tree.rs:116-153). Walks the selection path:
a Placeholder current node is skipped (`continue`); otherwise the child cell
for the action is fetched (panic → `none` when the action is missing), a
Placeholder child is expanded into a freshly allocated Expanded node that is
inserted into the parent's children map, the current node is pushed onto the
result and the walk moves to the previously fetched child cell. -/
def expansionLoop (g : Game σ α) [DecidableEq α] :
    List α → Store σ α → Nat → List Nat → Option (Store σ α × List Nat × Nat)
  | [], st, cur, acc => some (st, acc, cur)
  | a :: rest, st, cur, acc =>
      match getN st cur with
      | .Placeholder _ => expansionLoop g rest st cur acc
      | .Expanded d =>
          match alookup d.children a with
          | none => none
          | some childId =>
              match getN st childId with
              | .Placeholder w =>
                  let (st', newId) := placeholderExpansion g st a d.state w
                  let st'' := insertChildAt st' cur a newId
                  expansionLoop g rest st'' childId (acc ++ [cur])
              | .Expanded _ =>
                  expansionLoop g rest st childId (acc ++ [cur])

/-- Tree::expansion (tree.rs:104-156): the result list starts with the root
(tree.rs:113) and then follows the loop above. Returns the updated store and
the list of node ids handed to propagate_reward. -/
def expansion (g : Game σ α) [DecidableEq α] (st : Store σ α) (rootId : Nat)
    (sel : List α) : Option (Store σ α × List Nat) :=
  match expansionLoop g sel st rootId [rootId] with
  | none => none
  | some (st', acc, _) => some (st', acc)

/-- One reward draw for Node::visit inside Tree::propagate_reward
(tree.rs:200-203): the reward entry of the acting player of the previous
node's state, `reward.get(id).unwrap_or(0.0)`, and 0 for a chance actor. -/
def edgeReward (g : Game σ α) (reward : List ℚ) (s : σ) : ℚ :=
  match g.next_actor s with
  | .Player id => reward.getD id 0
  | .GameAction _ => 0

/-- Visit the node stored at id `n` (write lock then Node::visit). -/
def visitAt (st : Store σ α) (n : Nat) (r : ℚ) : Store σ α :=
  setN st n ((getN st n).visit r)

/-- Loop of Tree::propagate_reward (tree.rs:188-206): for each node after the
first, read the previous node's actor (panic → `none` on a Placeholder) and
visit the node with that actor's reward entry. -/
def propagateFrom (g : Game σ α) (reward : List ℚ) :
    Store σ α → Nat → List Nat → Option (Store σ α)
  | st, _, [] => some st
  | st, prev, n :: rest =>
      match (getN st prev).state? with
      | none => none
      | some s => propagateFrom g reward (visitAt st n (edgeReward g reward s)) n rest

/-- Tree::propagate_reward (tree.rs:182-207). `nodes[0]` on an empty vector
panics (→ `none`). -/
def propagate_reward (g : Game σ α) (st : Store σ α) (reward : List ℚ) :
    List Nat → Option (Store σ α)
  | [] => none
  | n0 :: rest => propagateFrom g reward st n0 rest

/-- Tree::play_out (tree.rs:158-180): uniform-random rollout to a terminal
state. Returns the terminal reward vector and the unconsumed random stream;
`none` models fuel exhaustion, an empty random stream, the `gen_range(0..0)`
panic on an empty action list and a propagated weighted_random panic. -/
def play_out (g : Game σ α) : Nat → List Nat → σ → Option (List ℚ × List Nat)
  | 0, _, _ => none
  | fuel + 1, rng, s =>
      if g.terminal s then some (g.reward s, rng)
      else
        match g.next_actor s with
        | .Player _ =>
            let pa := g.permitted_actions s
            match rng with
            | [] => none
            | r :: rng' =>
                if h : pa.length = 0 then none
                else
                  play_out g fuel rng'
                    (g.execute (pa.get ⟨r % pa.length, Nat.mod_lt _ (Nat.pos_of_ne_zero h)⟩) s)
        | .GameAction outs =>
            match rng with
            | [] => none
            | r :: rng' =>
                match weighted_random outs r with
                | .ok a => play_out g fuel rng' (g.execute a s)
                | _ => none

/-- Write the cached fully-explored flag of node `i` (the `try_write` in
node.rs:69-72, which always succeeds in this sequential model). -/
def writeFeCache (st : Store σ α) (i : Nat) (v : Bool) : Store σ α :=
  match getN st i with
  | .Expanded d => setN st i (.Expanded { d with cached_fully_explored := some v })
  | .Placeholder _ => st

mutual

/-- Node::fully_explored (node.rs:44-77): a Placeholder is never fully
explored; an Expanded node first consults its cache, otherwise it is fully
explored when it has no children or every child is an Expanded node that is
itself fully explored, and the result is written back to the cache. Fuel
bounds the recursion depth; exhausted fuel yields `false` without a cache
write (a modelling artifact, never hit with enough fuel). -/
def fullyExploredAux : Nat → Store σ α → Nat → Bool × Store σ α
  | 0, st, _ => (false, st)
  | fuel + 1, st, i =>
      match getN st i with
      | .Placeholder _ => (false, st)
      | .Expanded d =>
          match d.cached_fully_explored with
          | some v => (v, st)
          | none =>
              let p := allExploredAux fuel st (d.children.map Prod.snd)
              let fin := d.children.isEmpty || p.1
              (fin, writeFeCache p.2 i fin)
termination_by fuel _ _ => (fuel, 0)

/-- Conjunction over the children (the `all` iterator in node.rs:61-68),
short-circuiting on the first child that is a Placeholder or not fully
explored, threading cache writes through the store. -/
def allExploredAux : Nat → Store σ α → List Nat → Bool × Store σ α
  | _, st, [] => (true, st)
  | fuel, st, j :: rest =>
      match getN st j with
      | .Placeholder _ => (false, st)
      | .Expanded _ =>
          let p := fullyExploredAux fuel st j
          if p.1 then allExploredAux fuel p.2 rest else (false, p.2)
termination_by fuel _ l => (fuel, l.length + 1)

end

/-- RANDOM_FACTOR of the release build (node.rs:12-13). -/
def RANDOM_FACTOR : ℚ := 1 / 1000000

/-- Tiebreaker `rand::thread_rng().gen::<f64>() * RANDOM_FACTOR`
(node.rs:338): a raw draw is mapped into [0, 1) with 53 bits of precision. -/
def tieBreak (r : Nat) : ℚ :=
  ((r % 2 ^ 53 : Nat) : ℚ) / 2 ^ 53 * RANDOM_FACTOR

/-- UCB of one child in best_pick (node.rs:324-339), uncached path. For a
game-action (chance) parent the pair (visit_count, value_sum) fed into the
formula is (n/w, 1.0); otherwise it is (n, value_sum). A zero visit_count
yields f64::INFINITY; otherwise q = value_sum / visit_count,
u = sqrt(ln(parent_visits) / visit_count) and the score is
q + constant * u + r with tiebreaker r. `sq` and `lq` abstract f64::sqrt and
f64::ln; `pvc` is already clamped to at least 1 by the caller
(node.rs:303-307). -/
def child_ucb (sq lq : ℚ → ℚ) (constant : ℚ) (game_action : Bool)
    (pvc : Nat) (n w : Nat) (vs : ℚ) (r : ℚ) : Ucb :=
  let parent_visits : ℚ := (pvc : ℚ)
  let visit_count : ℚ := if game_action then (n : ℚ) / (w : ℚ) else (n : ℚ)
  let value_sum : ℚ := if game_action then 1 else vs
  if visit_count = 0 then .inf
  else
    let q : ℚ := value_sum / visit_count
    let u : ℚ := sq (lq parent_visits / visit_count)
    .val (q + constant * u + r)

/-- Specification formula for the UCB of a chance child (spec section 4.2 and
claim C2): q = 1 and u = sqrt(ln(max(1, visits(P))) / (n/w)), so the score is
1 + k*u + r. Stated for comparison with `child_ucb`. -/
def specChanceUcb (sq lq : ℚ → ℚ) (k : ℚ) (bigN n w : Nat) (r : ℚ) : ℚ :=
  1 + k * sq (lq ((max 1 bigN : Nat) : ℚ) / ((n : ℚ) / (w : ℚ))) + r

/-- Node::cached_ucb (node.rs:145-175): return the cached UCB only when the
cached (value_sum, visit_count, parent_visit_count) triple matches exactly. -/
def Node.cached_ucb_read : Node σ α → ℚ → Nat → Nat → Option Ucb
  | .Expanded d, vs, vc, pvc =>
      match d.cached_ucb with
      | some c =>
          if c.value_sum = vs ∧ c.visit_count = vc ∧ c.parent_visit_count = pvc
          then some c.ucb else none
      | none => none
  | .Placeholder _, _, _, _ => none

/-- Node::cache_ucb (node.rs:129-143): store the UCB with the statistics
snapshot it was computed from (the `try_write` always succeeds here). -/
def writeUcbCache (st : Store σ α) (i : Nat) (u : Ucb) (vs : ℚ) (vc pvc : Nat) :
    Store σ α :=
  match getN st i with
  | .Expanded d => setN st i (.Expanded { d with cached_ucb := some ⟨u, vs, vc, pvc⟩ })
  | .Placeholder _ => st

/-- Filter-map phase of best_pick (node.rs:309-353): skip fully-explored
children, use a matching cached UCB, give unvisited children f64::INFINITY
(no random draw), and otherwise compute `child_ucb` with a fresh tiebreaker
draw. Threads the store (fully_explored cache writes) and the random
stream. -/
def bestPickCompute (sq lq : ℚ → ℚ) (constant : ℚ) (fuel : Nat)
    (game_action : Bool) (pvc : Nat) :
    List (α × Nat) → Store σ α → List Nat → List (α × Ucb) × Store σ α × List Nat
  | [], st, rng => ([], st, rng)
  | (a, cid) :: rest, st, rng =>
      let fe := fullyExploredAux fuel st cid
      if fe.1 then bestPickCompute sq lq constant fuel game_action pvc rest fe.2 rng
      else
        let child := getN fe.2 cid
        match child.cached_ucb_read child.value_sum child.visit_count pvc with
        | some u =>
            let rec' := bestPickCompute sq lq constant fuel game_action pvc rest fe.2 rng
            ((a, u) :: rec'.1, rec'.2)
        | none =>
            let n := child.visit_count
            let vcq : ℚ := if game_action then (n : ℚ) / (child.weight : ℚ) else (n : ℚ)
            if vcq = 0 then
              let rec' := bestPickCompute sq lq constant fuel game_action pvc rest fe.2 rng
              ((a, Ucb.inf) :: rec'.1, rec'.2)
            else
              let r := tieBreak (rng.headD 0)
              let u := child_ucb sq lq constant game_action pvc n child.weight child.value_sum r
              let rec' := bestPickCompute sq lq constant fuel game_action pvc rest fe.2 rng.tail
              ((a, u) :: rec'.1, rec'.2)

/-- Cache-write pass of best_pick (node.rs:355-364): for every scored child,
record its UCB together with its current statistics. The lookup models
`children.get(action).unwrap()`; `none` is the panic (never hit, the actions
come from the same map). -/
def cacheWrites [DecidableEq α] (children : List (α × Nat)) (pvc : Nat) :
    List (α × Ucb) → Store σ α → Option (Store σ α)
  | [], st => some st
  | (a, u) :: rest, st =>
      match alookup children a with
      | none => none
      | some cid =>
          let nd := getN st cid
          cacheWrites children pvc rest
            (writeUcbCache st cid u nd.value_sum nd.visit_count pvc)

/-- Descending comparison used to model `sort_by(|a, b| b.1.partial_cmp(&a.1))`
(node.rs:365) over UCB scores: f64::INFINITY is greater than every finite
value. -/
def Ucb.geB : Ucb → Ucb → Bool
  | .inf, _ => true
  | .val _, .inf => false
  | .val x, .val y => decide (x ≥ y)

/-- Stable descending insertion used to model the stable `sort_by`. -/
def insertDescUcb : List (α × Ucb) → (α × Ucb) → List (α × Ucb)
  | [], x => [x]
  | y :: rest, x => if y.2.geB x.2 then y :: insertDescUcb rest x else x :: y :: rest

/-- Stable descending sort of the scored children (node.rs:365). -/
def sortDescUcb (l : List (α × Ucb)) : List (α × Ucb) :=
  l.foldl insertDescUcb []

/-- best_pick (node.rs:279-368): snapshot the children, read
(game_action, max(visit_count, 1)) from the node, score the children, write
the UCB caches and return the scores sorted in descending order. A
Placeholder node yields the empty list (node.rs:294-296). -/
def best_pick [DecidableEq α] (sq lq : ℚ → ℚ) (fuel : Nat)
    (st : Store σ α) (i : Nat) (constant : ℚ) (rng : List Nat) :
    Option (List (α × Ucb) × Store σ α × List Nat) :=
  match getN st i with
  | .Placeholder _ => some ([], st, rng)
  | .Expanded d =>
      let pvc := max d.visit_count 1
      let comp := bestPickCompute sq lq constant fuel d.game_action pvc d.children st rng
      match cacheWrites d.children pvc comp.1 comp.2.1 with
      | none => none
      | some st' => some (sortDescUcb comp.1, st', comp.2.2)

/-- Selection result (tree.rs:10-14). -/
inductive Selection (α : Type) where
  | FullyExplored
  | Selection (path : List α)
deriving DecidableEq

/-- Discriminator for the FullyExplored case. -/
def Selection.isFullyExplored : Mon2y.Selection α → Bool
  | .FullyExplored => true
  | .Selection _ => false

mutual

/-- Tree::select_from (tree.rs:56-102): score the children with best_pick and
try them in descending UCB order. Fuel bounds the descent depth; `none`
models fuel exhaustion or a panicking child lookup. -/
def select_from [DecidableEq α] (sq lq : ℚ → ℚ) (constant : ℚ) :
    Nat → Store σ α → Nat → List Nat → Option (Selection α × Store σ α × List Nat)
  | 0, _, _, _ => none
  | fuel + 1, st, nodeId, rng =>
      match best_pick sq lq fuel st nodeId constant rng with
      | none => none
      | some (picks, st₁, rng₁) =>
          selTry sq lq constant fuel st₁ nodeId rng₁ (picks.map Prod.fst)
termination_by fuel _ _ _ => (fuel, 0)

/-- Loop over the candidate actions (tree.rs:67-101): an unexpanded child ends
the selection with a one-step path; an expanded child is descended into, and a
FullyExplored answer from below moves on to the next candidate. An exhausted
candidate list (also the empty best_pick result, tree.rs:64-66) means
FullyExplored. -/
def selTry [DecidableEq α] (sq lq : ℚ → ℚ) (constant : ℚ) :
    Nat → Store σ α → Nat → List Nat → List α → Option (Selection α × Store σ α × List Nat)
  | _, st, _, rng, [] => some (.FullyExplored, st, rng)
  | fuel, st, nodeId, rng, a :: rest =>
      match getN st nodeId with
      | .Placeholder _ => none
      | .Expanded d =>
          match alookup d.children a with
          | none => none
          | some childId =>
              match getN st childId with
              | .Expanded _ =>
                  match select_from sq lq constant fuel st childId rng with
                  | none => none
                  | some (.FullyExplored, st', rng') =>
                      selTry sq lq constant fuel st' nodeId rng' rest
                  | some (.Selection sel, st', rng') =>
                      some (.Selection (a :: sel), st', rng')
              | .Placeholder _ => some (.Selection [a], st, rng)
termination_by fuel _ _ _ l => (fuel, l.length + 1)

end

/-- Tree::iterate (tree.rs:209-238): selection, then expansion of the selected
path, play-out from the state of the LAST node of the expansion result
(tree.rs:222-232), and backpropagation of the play-out reward along that node
list. A FullyExplored selection short-circuits. -/
def iterate (g : Game σ α) [DecidableEq α] (sq lq : ℚ → ℚ) (fuel : Nat)
    (st : Store σ α) (rootId : Nat) (constant : ℚ) (rng : List Nat) :
    Option (Selection α × Store σ α × List Nat) :=
  match select_from sq lq constant fuel st rootId rng with
  | none => none
  | some (.FullyExplored, st₁, rng₁) => some (.FullyExplored, st₁, rng₁)
  | some (.Selection path, st₁, rng₁) =>
      match expansion g st₁ rootId path with
      | none => none
      | some (st₂, nodes) =>
          match nodes.getLast? with
          | none => none
          | some lastId =>
              match (getN st₂ lastId).state? with
              | none => none
              | some s =>
                  match play_out g fuel rng₁ s with
                  | none => none
                  | some (reward, rng₂) =>
                      match propagate_reward g st₂ reward nodes with
                      | none => none
                      | some st₃ => some (.Selection path, st₃, rng₂)

/-- State from which Tree::iterate runs the play-out (tree.rs:222-232):
iterate calls expansion on the selected path and hands play_out the state of
the LAST node of the returned node list. This definition recomputes that
projection of `iterate` so it can be evaluated in isolation. -/
def iterate_playout_state (g : Game σ α) [DecidableEq α] (st : Store σ α)
    (rootId : Nat) (path : List α) : Option σ :=
  match expansion g st rootId path with
  | none => none
  | some (st₂, nodes) =>
      match nodes.getLast? with
      | none => none
      | some lastId => (getN st₂ lastId).state?

/-- Final-move policies (mcts.rs:93-181): Ucb0 is the spec's MeanValue. -/
inductive BestTurnPolicy where
  | Ucb0
  | MostVisits

/-- Break condition of the worker loop (mcts.rs:67-73): stop when the
pre-increment iteration counter has reached the budget, the iteration
reported FullyExplored, or the elapsed value exceeds the time limit
(`time_limit.unwrap_or(Duration::MAX)` never triggers on `none`). -/
def loop_break (iterations : Nat) (tl : Option ℚ) (current : Nat)
    (fullyExplored : Bool) (elapsed : ℚ) : Bool :=
  decide (current ≥ iterations) || fullyExplored ||
    (match tl with
     | some t => decide (elapsed > t)
     | none => false)

/-- Worker loop of calculate_best_turn (mcts.rs:53-74): each pass reads the
clock at the TOP of the loop body (mcts.rs:54), runs one tree iteration,
post-increments the shared counter, and breaks per `loop_break` where the
elapsed value is the duration of the pass that just finished (the timer was
reset when the pass began). `times` supplies each pass's wall-clock duration;
the loop fuel `lfuel` and the iteration fuel `ifuel` are modelling bounds. -/
def workerLoop (g : Game σ α) [DecidableEq α] (sq lq : ℚ → ℚ) (constant : ℚ)
    (rootId : Nat) (iterations : Nat) (tl : Option ℚ) (ifuel : Nat) :
    Nat → Store σ α → Nat → List Nat → List ℚ →
    Option (Store σ α × Nat × List Nat × List ℚ)
  | 0, _, _, _, _ => none
  | lfuel + 1, st, counter, rng, times =>
      match times with
      | [] => none
      | d :: times' =>
          match iterate g sq lq ifuel st rootId constant rng with
          | none => none
          | some (sel, st', rng') =>
              if loop_break iterations tl counter sel.isFullyExplored d then
                some (st', counter + 1, rng', times')
              else
                workerLoop g sq lq constant rootId iterations tl ifuel lfuel
                  st' (counter + 1) rng' times'

/-- Sequentialised `thread::scope` (mcts.rs:46-81): run `thread_count` worker
loops one after another against the shared tree and counter. -/
def runWorkers (g : Game σ α) [DecidableEq α] (sq lq : ℚ → ℚ) (constant : ℚ)
    (rootId : Nat) (iterations : Nat) (tl : Option ℚ) (ifuel lfuel : Nat) :
    Nat → Store σ α → Nat → List Nat → List ℚ →
    Option (Store σ α × Nat × List Nat × List ℚ)
  | 0, st, counter, rng, times => some (st, counter, rng, times)
  | t + 1, st, counter, rng, times =>
      match workerLoop g sq lq constant rootId iterations tl ifuel lfuel
          st counter rng times with
      | none => none
      | some (st', counter', rng', times') =>
          runWorkers g sq lq constant rootId iterations tl ifuel lfuel
            t st' counter' rng' times'

/-- Score of a root child under the Ucb0 policy (mcts.rs:101-112):
value_sum divided by visit_count when the child was visited, and by
f64::INFINITY otherwise. IEEE division of the (finite, here exactly zero or
not) value_sum by +INFINITY yields ±0.0, which compares equal to 0, so the
zero-visit score is 0. -/
def ucb0_score (nd : Node σ α) : ℚ :=
  if nd.visit_count > 0 then nd.value_sum / (nd.visit_count : ℚ) else 0

/-- First element with the maximal second component: the head of the stable
descending `sort_by` (mcts.rs:116) followed by `picks[0]` (mcts.rs:118). -/
def firstMaxQ : List (α × ℚ) → Option (α × ℚ)
  | [] => none
  | x :: rest => some (rest.foldl (fun b y => if y.2 > b.2 then y else b) x)

/-- Scored root children of the Ucb0 branch (mcts.rs:97-115). -/
def ucb0_picks (st : Store σ α) (children : List (α × Nat)) : List (α × ℚ) :=
  children.map (fun ac => (ac.1, ucb0_score (getN st ac.2)))

/-- Action returned by the Ucb0 policy branch (mcts.rs:94-119); `none` models
the `picks[0]` panic on an empty children list. -/
def ucb0_pick (st : Store σ α) (children : List (α × Nat)) : Option α :=
  (firstMaxQ (ucb0_picks st children)).map Prod.fst

/-- Index of the maximal reward entry (mcts.rs:149-157): `max_by` keeps the
LAST maximal element. -/
def lastArgmax : List ℚ → Option (Nat × ℚ)
  | [] => none
  | x :: rest =>
      some ((rest.enum.map (fun p => (p.1 + 1, p.2))).foldl
        (fun b y => if y.2 ≥ b.2 then y else b) (0, x))

/-- Winning-move scan of the MostVisits branch (mcts.rs:134-166): root actions
whose child state is terminal and assigns its maximal reward entry to the
player to move at the root. -/
def winningMoves (g : Game σ α) (st : Store σ α) (rootState : σ)
    (children : List (α × Nat)) : List α :=
  children.filterMap (fun ac =>
    match getN st ac.2 with
    | .Placeholder _ => none
    | .Expanded cd =>
        if g.terminal cd.state then
          match g.next_actor rootState with
          | .Player pid =>
              match lastArgmax (g.reward cd.state) with
              | some iv => if iv.1 = pid then some ac.1 else none
              | none => none
          | .GameAction _ => none
        else none)

/-- Fallback of the MostVisits branch (mcts.rs:171-176): `max_by_key` on
visit_count keeps the LAST maximal element; `none` models the `.unwrap()`
panic on an empty children list. -/
def mostVisitsFallback (st : Store σ α) : List (α × Nat) → Option α
  | [] => none
  | c :: rest =>
      some ((rest.foldl (fun b y =>
        if (getN st y.2).visit_count ≥ (getN st b.2).visit_count then y else b) c).1)

/-- calculate_best_turn (mcts.rs:15-182): build the root, short-circuit when
it has exactly one child (mcts.rs:35-40), otherwise run the workers and apply
the final policy. Returns the chosen action together with the value of the
shared finished-iterations counter (0 on the short-circuit path); `none`
models a panic or exhausted modelling bounds. Annotation plumbing is out of
scope and omitted. -/
def calculate_best_turn (g : Game σ α) [DecidableEq α] (sq lq : ℚ → ℚ)
    (iterations : Nat) (tl : Option ℚ) (thread_count : Nat) (s : σ)
    (policy : BestTurnPolicy) (constant : ℚ) (ifuel lfuel : Nat)
    (rng : List Nat) (times : List ℚ) : Option (α × Nat) :=
  let created := createExpandedNode g [] s none
  let st := created.1
  let rootId := created.2
  match getN st rootId with
  | .Placeholder _ => none
  | .Expanded d =>
      if d.children.length = 1 then
        d.children.head?.map (fun c => (c.1, 0))
      else
        match runWorkers g sq lq constant rootId iterations tl ifuel lfuel
            thread_count st 0 rng times with
        | none => none
        | some (st', counter, _, _) =>
            match policy with
            | .Ucb0 =>
                match getN st' rootId with
                | .Placeholder _ => none
                | .Expanded d' => (ucb0_pick st' d'.children).map (fun a => (a, counter))
            | .MostVisits =>
                match getN st' rootId with
                | .Placeholder _ => none
                | .Expanded d' =>
                    match (winningMoves g st' d'.state d'.children).head? with
                    | some a => some (a, counter)
                    | none => (mostVisitsFallback st' d'.children).map (fun a => (a, counter))

/-- Timing skeleton of `workerLoop` (mcts.rs:53-74) with the tree iterations
abstracted to their observable effect on the stop decision: each pass is
summarised by its wall-clock duration and whether it returned FullyExplored.
Returns how many passes run. The elapsed value checked against the time limit
is the duration of the pass alone, because `time_started` is reset at the top
of every pass (mcts.rs:54). -/
def worker_iterations (iterations : Nat) (tl : Option ℚ) :
    Nat → List (ℚ × Bool) → Nat
  | _, [] => 0
  | counter, (d, fe) :: rest =>
      1 + (if loop_break iterations tl counter fe d then 0
           else worker_iterations iterations tl (counter + 1) rest)

/-- Specification model of the same loop (spec sections 4.4 and 5, claim C4):
the value compared against the time limit is the wall-clock elapsed since the
SEARCH started, accumulated across passes. -/
def spec_worker_iterations (iterations : Nat) (tl : Option ℚ) :
    Nat → ℚ → List (ℚ × Bool) → Nat
  | _, _, [] => 0
  | counter, elapsed, (d, fe) :: rest =>
      1 + (if loop_break iterations tl counter fe (elapsed + d) then 0
           else spec_worker_iterations iterations tl (counter + 1) (elapsed + d) rest)

/-! Store lemmas. -/

theorem getN_setN_self (st : Store σ α) (i : Nat) (n : Node σ α)
    (hi : i < st.length) : getN (setN st i n) i = n := by
  simp [getN, setN, List.getElem?_set_eq_of_lt _ hi]

theorem getN_setN_ne (st : Store σ α) (i j : Nat) (n : Node σ α)
    (h : j ≠ i) : getN (setN st i n) j = getN st j := by
  simp [getN, setN, List.getElem?_set_ne (fun he => (h he.symm).elim)]

theorem getN_out_of_range (st : Store σ α) (i : Nat) (hi : st.length ≤ i) :
    getN st i = Node.Placeholder none := by
  simp [getN, List.getElem?_eq_none hi]

/-- Node.visit applied to the default out-of-range Placeholder is a no-op,
so visiting works uniformly with `getN`. -/
theorem getN_visitAt_self (st : Store σ α) (n : Nat) (r : ℚ) :
    getN (visitAt st n r) n = (getN st n).visit r := by
  by_cases hn : n < st.length
  · exact getN_setN_self st n _ hn
  · rw [visitAt, setN, List.set_eq_of_length_le (Nat.le_of_not_lt hn)]
    rw [getN_out_of_range st n (Nat.le_of_not_lt hn)]
    rfl

theorem getN_visitAt_ne (st : Store σ α) (n j : Nat) (r : ℚ) (h : j ≠ n) :
    getN (visitAt st n r) j = getN st j :=
  getN_setN_ne st n j _ h

/-! Node.visit preserves everything except the statistics and the
fully-explored cache. -/

theorem visit_state? (nd : Node σ α) (r : ℚ) : (nd.visit r).state? = nd.state? := by
  cases nd <;> rfl

theorem visit_isExpanded (nd : Node σ α) (r : ℚ) :
    (nd.visit r).isExpanded = nd.isExpanded := by
  cases nd <;> rfl

theorem visit_visit_count_of_isExpanded (nd : Node σ α) (r : ℚ)
    (h : nd.isExpanded = true) : (nd.visit r).visit_count = nd.visit_count + 1 := by
  cases nd with
  | Expanded d => rfl
  | Placeholder w => simp [Node.isExpanded] at h

theorem visit_value_sum_of_isExpanded (nd : Node σ α) (r : ℚ)
    (h : nd.isExpanded = true) : (nd.visit r).value_sum = nd.value_sum + r := by
  cases nd with
  | Expanded d => rfl
  | Placeholder w => simp [Node.isExpanded] at h

/-! Frame and per-edge behaviour of propagate_reward. -/

theorem propagateFrom_frame (g : Game σ α) (reward : List ℚ) :
    ∀ (l : List Nat) (st : Store σ α) (prev : Nat) (st' : Store σ α),
      propagateFrom g reward st prev l = some st' →
      ∀ j, j ∉ l → getN st' j = getN st j := by
  intro l
  induction l with
  | nil =>
      intro st prev st' h j _
      simp [propagateFrom] at h
      rw [h]
  | cons n rest ih =>
      intro st prev st' h j hj
      rw [propagateFrom] at h
      cases hs : (getN st prev).state? with
      | none => rw [hs] at h; exact absurd h (by simp)
      | some s =>
          rw [hs] at h
          have hj' : j ∉ rest := fun hm => hj (List.mem_cons_of_mem _ hm)
          have hjn : j ≠ n := fun he => hj (he ▸ List.mem_cons_self n rest)
          rw [ih _ _ _ h j hj', getN_visitAt_ne st n j _ hjn]

theorem propagateFrom_edge (g : Game σ α) (reward : List ℚ) :
    ∀ (l : List Nat) (st : Store σ α) (prev : Nat) (st' : Store σ α),
      propagateFrom g reward st prev l = some st' →
      l.Nodup →
      ∀ (i : Nat) (hi : i < l.length),
        ∃ s, (getN st ((prev :: l).get ⟨i, by simpa using Nat.lt_succ_of_lt hi⟩)).state? = some s ∧
          getN st' (l.get ⟨i, hi⟩) =
            (getN st (l.get ⟨i, hi⟩)).visit (edgeReward g reward s) := by
  intro l
  induction l with
  | nil => intro st prev st' _ _ i hi; exact absurd hi (by simp)
  | cons n rest ih =>
      intro st prev st' h hnd i hi
      rw [propagateFrom] at h
      cases hs : (getN st prev).state? with
      | none => rw [hs] at h; exact absurd h (by simp)
      | some s =>
          rw [hs] at h
          have hnmem : n ∉ rest := (List.nodup_cons.1 hnd).1
          have hndr : rest.Nodup := (List.nodup_cons.1 hnd).2
          cases i with
          | zero =>
              refine ⟨s, hs, ?_⟩
              have := propagateFrom_frame g reward rest _ n st' h n hnmem
              rw [List.get] at *
              rw [this, getN_visitAt_self]
          | succ i =>
              have hi' : i < rest.length := by simpa using hi
              obtain ⟨s', hs', he⟩ := ih _ n st' h hndr i hi'
              have hC : rest.get ⟨i, hi'⟩ ≠ n := fun he' =>
                hnmem (he' ▸ rest.get_mem i hi')
              refine ⟨s', ?_, ?_⟩
              · -- the parent (n :: rest).get i read in the visited store has
                -- the same state as in the original store
                rcases eq_or_ne ((n :: rest).get ⟨i, by simpa using Nat.lt_succ_of_lt hi'⟩) n with hP | hP
                · rw [List.get_cons_succ]
                  rw [hP] at hs' ⊢
                  rw [getN_visitAt_self, visit_state?] at hs'
                  exact hs'
                · rw [List.get_cons_succ]
                  rw [getN_visitAt_ne st n _ _ hP] at hs'
                  exact hs'
              · rw [List.get_cons_succ, he, getN_visitAt_ne st n _ _ hC]

/-! Lemmas about weighted_random and cumulative weights. -/

theorem weighted_random_loop_mem :
    ∀ (items : List (α × Nat)) (cum r : Nat), cum ≤ r → r < cum + totalWeight items →
      ∃ a ∈ items.map Prod.fst, weighted_random_loop items cum r = .ok a := by
  intro items
  induction items with
  | nil =>
      intro cum r hle hlt
      rw [totalWeight] at hlt
      simp at hlt
      omega
  | cons p rest ih =>
      intro cum r hle hlt
      obtain ⟨a, w⟩ := p
      by_cases hw : cum + w > r
      · exact ⟨a, by simp, by simp [weighted_random_loop, hw]⟩
      · have hle' : cum + w ≤ r := Nat.le_of_not_lt hw
        have hlt' : r < cum + w + totalWeight rest := by
          rw [totalWeight] at hlt ⊢
          simp at hlt
          omega
        obtain ⟨b, hb, hres⟩ := ih (cum + w) r hle' hlt'
        exact ⟨b, by simp at hb ⊢; exact Or.inr hb, by simp [weighted_random_loop, hw, hres]⟩

theorem cumBefore_zero (items : List (α × Nat)) : cumBefore items 0 = 0 := rfl

theorem cumBefore_succ_get (items : List (α × Nat)) (i : Nat) (hi : i < items.length) :
    cumBefore items (i + 1) = cumBefore items i + (items.get ⟨i, hi⟩).2 := by
  have hm : i < (items.map Prod.snd).length := by simpa using hi
  rw [cumBefore, cumBefore, List.map_take, List.map_take, List.sum_take_succ _ i hm]
  congr 1
  simp

theorem cumBefore_le_succ (items : List (α × Nat)) (i : Nat) :
    cumBefore items i ≤ cumBefore items (i + 1) := by
  by_cases hi : i < items.length
  · rw [cumBefore_succ_get items i hi]; omega
  · rw [cumBefore, cumBefore, List.take_of_length_le (Nat.le_of_not_lt hi),
      List.take_of_length_le (by omega : items.length ≤ i + 1)]

theorem cumBefore_mono (items : List (α × Nat)) (i j : Nat) (h : i ≤ j) :
    cumBefore items i ≤ cumBefore items j := by
  induction j with
  | zero =>
      have : i = 0 := by omega
      rw [this]
  | succ j ihj =>
      by_cases hij : i ≤ j
      · exact le_trans (ihj hij) (cumBefore_le_succ items j)
      · have : i = j + 1 := by omega
        rw [this]

theorem cumBefore_length (items : List (α × Nat)) :
    cumBefore items items.length = totalWeight items := by
  rw [cumBefore, totalWeight, List.take_length]

theorem weighted_random_loop_interval :
    ∀ (items : List (α × Nat)) (i : Nat) (hi : i < items.length) (cum r : Nat),
      cum + cumBefore items i ≤ r →
      r < cum + cumBefore items i + (items.get ⟨i, hi⟩).2 →
      weighted_random_loop items cum r = .ok (items.get ⟨i, hi⟩).1 := by
  intro items
  induction items with
  | nil => intro i hi; exact absurd hi (by simp)
  | cons p rest ih =>
      intro i hi cum r hlo hhi
      obtain ⟨a, w⟩ := p
      cases i with
      | zero =>
          rw [cumBefore_zero] at hlo hhi
          simp only [List.get] at hhi ⊢
          rw [weighted_random_loop]
          rw [if_pos (by omega)]
      | succ i =>
          have hi' : i < rest.length := by simpa using hi
          have hcb : cumBefore ((a, w) :: rest) (i + 1) = w + cumBefore rest i := by
            rw [cumBefore, cumBefore, List.take_succ_cons]
            simp
          rw [hcb] at hlo hhi
          simp only [List.get_cons_succ] at hhi ⊢
          rw [weighted_random_loop, if_neg (by omega)]
          exact ih i hi' (cum + w) r (by omega) (by omega)

theorem cum_intervals_disjoint (items : List (α × Nat)) (i j : Nat)
    (hi : i < items.length) (hj : j < items.length) (x : Nat)
    (h1 : cumBefore items i ≤ x) (h2 : x < cumBefore items i + (items.get ⟨i, hi⟩).2)
    (h3 : cumBefore items j ≤ x) (h4 : x < cumBefore items j + (items.get ⟨j, hj⟩).2) :
    i = j := by
  rcases Nat.lt_trichotomy i j with hij | hij | hij
  · exfalso
    have hs : cumBefore items (i + 1) ≤ cumBefore items j := cumBefore_mono items _ _ hij
    rw [cumBefore_succ_get items i hi] at hs
    omega
  · exact hij
  · exfalso
    have hs : cumBefore items (j + 1) ≤ cumBefore items i := cumBefore_mono items _ _ hij
    rw [cumBefore_succ_get items j hj] at hs
    omega

/-! Lemma about the first-maximum fold of the Ucb0 policy. -/

theorem firstMaxQ_fold_spec :
    ∀ (rest : List (α × ℚ)) (x : α × ℚ),
      (rest.foldl (fun b y => if y.2 > b.2 then y else b) x) ∈ x :: rest ∧
      x.2 ≤ (rest.foldl (fun b y => if y.2 > b.2 then y else b) x).2 ∧
      ∀ y ∈ rest, y.2 ≤ (rest.foldl (fun b y => if y.2 > b.2 then y else b) x).2 := by
  intro rest
  induction rest with
  | nil => intro x; exact ⟨by simp, le_refl _, by simp⟩
  | cons y rest ih =>
      intro x
      simp only [List.foldl_cons]
      obtain ⟨hmem, hx, hall⟩ := ih (if y.2 > x.2 then y else x)
      have hfx : x.2 ≤ (if y.2 > x.2 then y else x).2 := by
        by_cases h : y.2 > x.2
        · rw [if_pos h]; exact le_of_lt h
        · rw [if_neg h]
      have hfy : y.2 ≤ (if y.2 > x.2 then y else x).2 := by
        by_cases h : y.2 > x.2
        · rw [if_pos h]
        · rw [if_neg h]; exact le_of_not_lt h
      have hor : (if y.2 > x.2 then y else x) = y ∨ (if y.2 > x.2 then y else x) = x := by
        by_cases h : y.2 > x.2
        · exact Or.inl (if_pos h)
        · exact Or.inr (if_neg h)
      refine ⟨?_, ?_, ?_⟩
      · rcases List.mem_cons.1 hmem with h | h
        · rw [h]
          rcases hor with h2 | h2 <;> rw [h2] <;> simp
        · exact List.mem_cons_of_mem _ (List.mem_cons_of_mem _ h)
      · exact le_trans hfx hx
      · intro z hz
        rcases List.mem_cons.1 hz with h | h
        · rw [h]; exact le_trans hfy hx
        · exact hall z h

/-! Concrete games and stores used by witnesses and counterexamples. -/

/-- Two-action countdown game: both actions decrement the state, state 0 is
terminal with reward [1]. -/
def lineGame : Game Nat Nat :=
  ⟨fun _ s => s - 1,
   fun s => if s = 0 then [] else [0, 1],
   fun _ => .Player 0,
   fun s => decide (s = 0),
   fun _ => [1]⟩

/-- Game whose nonzero states are chance states with outcomes 5 (weight 1)
and 7 (weight 2); every action leads to the terminal state 0. -/
def diceGame : Game Nat Nat :=
  ⟨fun _ _ => 0,
   fun _ => [9],
   fun s => if s = 0 then .Player 0 else .GameAction [(5, 1), (7, 2)],
   fun s => decide (s = 0),
   fun _ => [1]⟩

/-- Game with a single permitted action, for the short-circuit witness. -/
def soloGame : Game Nat Nat :=
  ⟨fun _ s => s + 1,
   fun _ => [7],
   fun _ => .Player 0,
   fun s => decide (5 ≤ s),
   fun _ => [1]⟩

/-- Expanded player node for concrete stores. -/
def mkE (s : Nat) (ch : List (Nat × Nat)) (vc : Nat) (vs : ℚ) : Node Nat Nat :=
  .Expanded ⟨s, ch, vc, vs, none, none, false, none⟩

/-- Expanded chance (game-action) node for concrete stores. -/
def mkC (s : Nat) (ch : List (Nat × Nat)) (vc : Nat) (vs : ℚ) : Node Nat Nat :=
  .Expanded ⟨s, ch, vc, vs, none, none, true, none⟩

/-- Root → child → grandchild path store for the C3 witness. -/
def stW : Store Nat Nat := [mkE 2 [(0, 1)] 0 0, mkE 1 [(0, 2)] 0 0, mkE 0 [] 0 0]

/-- stW after propagating reward 4/5 along [0, 1, 2]. -/
def stW' : Store Nat Nat := [mkE 2 [(0, 1)] 0 0, mkE 1 [(0, 2)] 1 (4 / 5), mkE 0 [] 1 (4 / 5)]

/-! Claim theorems. -/

/-- C10: weighted_random terminates and returns one of the items whenever the
total weight is positive — its trailing unreachable branch is never reached —
and when the total weight is zero (empty list or all-zero weights) the
gen_range call panics instead of returning. -/
theorem weighted_random_total_behaviour (items : List (α × Nat)) (rng : Nat) :
    (0 < totalWeight items →
      ∃ a ∈ items.map Prod.fst, weighted_random items rng = .ok a) ∧
    (totalWeight items = 0 → weighted_random items rng = .panicEmptyRange) := by
  constructor
  · intro hpos
    have hne : ¬ totalWeight items = 0 := by omega
    obtain ⟨a, ha, hres⟩ := weighted_random_loop_mem items 0 (rng % totalWeight items)
      (Nat.zero_le _) (by simpa using Nat.mod_lt rng hpos)
    refine ⟨a, ha, ?_⟩
    rw [weighted_random]
    simp only [hne, if_false]
    exact hres
  · intro h0
    rw [weighted_random]
    simp only [h0, if_true]

/-- C10 witness: items [(10, 1), (20, 2)] with draw 5 have positive total
weight and the call returns a member. -/
theorem weighted_random_total_behaviour_witness :
    ∃ a ∈ [((10 : Nat), 1), (20, 2)].map Prod.fst,
      weighted_random [((10 : Nat), 1), (20, 2)] 5 = .ok a :=
  (weighted_random_total_behaviour [((10 : Nat), 1), (20, 2)] 5).1 (by decide)

/-- C8: at a non-terminal state, a Player rollout step executes the permitted
action at the uniformly drawn index, and a Chance rollout step inverse-CDF
samples: with the draw reduced into [0, Σweights), outcome i is executed
exactly when the draw lies in [cumBefore i, cumBefore i + wᵢ); these
intervals are pairwise disjoint, so the selected outcome index is unique. -/
theorem play_out_rollout_sampling (g : Game σ α) (fuel : Nat) (r : Nat)
    (rng : List Nat) (s : σ) (hterm : g.terminal s = false) :
    (∀ pid, g.next_actor s = .Player pid →
      ∀ (h : (g.permitted_actions s).length ≠ 0),
        play_out g (fuel + 1) (r :: rng) s =
          play_out g fuel rng
            (g.execute ((g.permitted_actions s).get
              ⟨r % (g.permitted_actions s).length,
               Nat.mod_lt _ (Nat.pos_of_ne_zero h)⟩) s)) ∧
    (∀ outs, g.next_actor s = .GameAction outs →
      ∀ (i : Nat) (hi : i < outs.length),
        cumBefore outs i ≤ r % totalWeight outs →
        r % totalWeight outs < cumBefore outs i + (outs.get ⟨i, hi⟩).2 →
        play_out g (fuel + 1) (r :: rng) s =
          play_out g fuel rng (g.execute (outs.get ⟨i, hi⟩).1 s)) ∧
    (∀ (outs : List (α × Nat)) (i j : Nat) (hi : i < outs.length)
        (hj : j < outs.length) (x : Nat),
        cumBefore outs i ≤ x → x < cumBefore outs i + (outs.get ⟨i, hi⟩).2 →
        cumBefore outs j ≤ x → x < cumBefore outs j + (outs.get ⟨j, hj⟩).2 → i = j) := by
  refine ⟨?_, ?_, fun outs i j hi hj x h1 h2 h3 h4 =>
    cum_intervals_disjoint outs i j hi hj x h1 h2 h3 h4⟩
  · intro pid hpid h
    rw [play_out, hterm, hpid]
    simp only [Bool.false_eq_true, if_false]
    rw [dif_neg h]
  · intro outs houts i hi hlo hhi
    have htot : totalWeight outs ≠ 0 := by
      intro h0
      have hle : cumBefore outs (i + 1) ≤ totalWeight outs := by
        rw [← cumBefore_length outs]
        exact cumBefore_mono outs _ _ hi
      rw [cumBefore_succ_get outs i hi] at hle
      rw [h0, Nat.mod_zero] at hhi
      omega
    have hwr : weighted_random outs r = .ok (outs.get ⟨i, hi⟩).1 := by
      rw [weighted_random]
      simp only [htot, if_false]
      exact weighted_random_loop_interval outs i hi 0 (r % totalWeight outs)
        (by simpa using hlo) (by simpa using hhi)
    rw [play_out, hterm, houts]
    simp only [Bool.false_eq_true, if_false]
    rw [hwr]

/-- C8 witness: in diceGame at the chance state 1 with draw 4 (reduced to
4 mod 3 = 1, inside outcome 7's interval [1, 3)), the rollout executes
outcome 7. -/
theorem play_out_rollout_sampling_witness :
    play_out diceGame 2 [4, 0] 1 =
      play_out diceGame 1 [0] (diceGame.execute 7 1) :=
  (play_out_rollout_sampling diceGame 1 4 [0] 1 (by decide)).2.1
    [(5, 1), (7, 2)] (by decide) 1 (by decide) (by decide) (by decide)

/-- Visiting with reward 0 leaves value_sum unchanged. -/
theorem visit_zero_value_sum (nd : Node σ α) : (nd.visit 0).value_sum = nd.value_sum := by
  cases nd with
  | Expanded d => simp [Node.visit, Node.value_sum]
  | Placeholder w => rfl

/-- C3: along a backpropagation path (pairwise distinct Expanded nodes), each
traversed edge from parent P to child C increments C's visit_count by exactly
1, adds reward[id] to C's value_sum when P's actor is Player(id), and adds 0
(leaves value_sum unchanged) when P's actor is Chance. -/
theorem propagate_reward_updates_each_edge (g : Game σ α) (st st' : Store σ α)
    (reward : List ℚ) (n0 : Nat) (rest : List Nat)
    (hprop : propagate_reward g st reward (n0 :: rest) = some st')
    (hpath : (n0 :: rest).Nodup)
    (i : Nat) (hi : i < rest.length)
    (hC : (getN st (rest.get ⟨i, hi⟩)).isExpanded = true) :
    ∃ s, (getN st ((n0 :: rest).get ⟨i, by simpa using Nat.lt_succ_of_lt hi⟩)).state? = some s ∧
      (getN st' (rest.get ⟨i, hi⟩)).visit_count = (getN st (rest.get ⟨i, hi⟩)).visit_count + 1 ∧
      (∀ pid, g.next_actor s = .Player pid → ∀ (hp : pid < reward.length),
        (getN st' (rest.get ⟨i, hi⟩)).value_sum =
          (getN st (rest.get ⟨i, hi⟩)).value_sum + reward.get ⟨pid, hp⟩) ∧
      (∀ outs, g.next_actor s = .GameAction outs →
        (getN st' (rest.get ⟨i, hi⟩)).value_sum = (getN st (rest.get ⟨i, hi⟩)).value_sum) := by
  have hprop' : propagateFrom g reward st n0 rest = some st' := hprop
  have hnd : rest.Nodup := (List.nodup_cons.1 hpath).2
  obtain ⟨s, hs, he⟩ := propagateFrom_edge g reward rest st n0 st' hprop' hnd i hi
  refine ⟨s, hs, ?_, ?_, ?_⟩
  · rw [he, visit_visit_count_of_isExpanded _ _ hC]
  · intro pid hpid hp
    rw [he, visit_value_sum_of_isExpanded _ _ hC]
    congr 1
    rw [edgeReward, hpid]
    exact List.getD_eq_get _ _ hp
  · intro outs houts
    rw [he]
    have : edgeReward g reward s = 0 := by rw [edgeReward, houts]
    rw [this, visit_zero_value_sum]

/-- C3 witness: propagating reward 4/5 along the path [0, 1, 2] in stW
updates the edge from node 1 to node 2: visit_count 0 → 1 and value_sum
0 → 0 + 4/5 since node 1's actor is Player 0. -/
theorem propagate_reward_updates_each_edge_witness :
    ∃ s, (getN stW 1).state? = some s ∧
      (getN stW' 2).visit_count = (getN stW 2).visit_count + 1 ∧
      (∀ pid, lineGame.next_actor s = .Player pid →
        ∀ (hp : pid < [(4 : ℚ) / 5].length),
        (getN stW' 2).value_sum = (getN stW 2).value_sum + [(4 : ℚ) / 5].get ⟨pid, hp⟩) ∧
      (∀ outs, lineGame.next_actor s = .GameAction outs →
        (getN stW' 2).value_sum = (getN stW 2).value_sum) :=
  propagate_reward_updates_each_edge lineGame stW stW' [4 / 5] 0 [1, 2]
    (by
      simp only [propagate_reward, propagateFrom, visitAt, setN, getN, edgeReward,
        Node.visit, Node.state?, stW, stW', mkE, lineGame]
      norm_num)
    (by decide) 1 (by decide) (by decide)

/-- Single-node store aliased twice in a propagation call (C9). -/
def stAlias : Store Nat Nat := [mkE 1 [] 0 0]

/-- C9 counterexample: when the node at position 0 also occurs later in the
list (nodes = [0, 0], which is exactly what Tree::expansion produces, root
twice), the position-0 node IS modified by the call: its visit_count changes
from 0 to 1. -/
theorem propagate_reward_modifies_aliased_head :
    propagate_reward lineGame stAlias [1] [0, 0] = some [mkE 1 [] 1 1] ∧
    ¬ (getN [mkE 1 [] 1 1] 0).visit_count = (getN stAlias 0).visit_count := by
  refine ⟨?_, by decide⟩
  simp only [propagate_reward, propagateFrom, visitAt, setN, getN, edgeReward,
    Node.visit, Node.state?, stAlias, mkE, lineGame]
  norm_num

/-- C9 amended: every node id not occurring at positions 1 and onward is left
completely unchanged (statistics, children and caches) by propagate_reward;
in particular the node at position 0 is only read, PROVIDED it does not also
occur later in the list. -/
theorem propagate_reward_frame_effect (g : Game σ α) (st st' : Store σ α)
    (reward : List ℚ) (n0 : Nat) (rest : List Nat)
    (hprop : propagate_reward g st reward (n0 :: rest) = some st')
    (j : Nat) (hj : j ∉ rest) : getN st' j = getN st j :=
  propagateFrom_frame g reward rest st n0 st' hprop j hj

/-- Two-node store for the C9 witness. -/
def stW9 : Store Nat Nat := [mkE 1 [(0, 1)] 0 0, mkE 0 [] 0 0]

/-- stW9 after propagating reward 1 along [0, 1]. -/
def stW9' : Store Nat Nat := [mkE 1 [(0, 1)] 0 0, mkE 0 [] 1 1]

/-- C9 witness: along [0, 1] the head node 0 (absent from the tail) is left
unchanged. -/
theorem propagate_reward_frame_effect_witness : getN stW9' 0 = getN stW9 0 :=
  propagate_reward_frame_effect lineGame stW9 stW9' [1] 0 [1]
    (by
      simp only [propagate_reward, propagateFrom, visitAt, setN, getN, edgeReward,
        Node.visit, Node.state?, stW9, stW9', mkE, lineGame]
      norm_num)
    0 (by decide)

/-- Player-parent / chance-child store for the C5 counterexample. -/
def stChance : Store Nat Nat := [mkE 0 [(9, 1)] 0 0, mkC 1 [] 0 0]

/-- stChance after propagating reward [1] along [0, 1]. -/
def stChance' : Store Nat Nat := [mkE 0 [(9, 1)] 0 0, mkC 1 [] 1 1]

/-- C5 counterexample: a backpropagation along the edge from a Player(0)
parent (node 0) to a child whose OWN actor is Chance (node 1, state 1, a
game-action state of diceGame) adds reward[0] = 1 to the chance node's
value_sum: rewards are attributed by the parent's actor, so a Chance Expanded
node under a player parent does accumulate reward. -/
theorem chance_node_accumulates_reward :
    propagate_reward diceGame stChance [1] [0, 1] = some stChance' ∧
    isGameActionB diceGame 1 = true ∧
    (getN stChance' 1).value_sum = 1 ∧ (getN stChance 1).value_sum = 0 := by
  refine ⟨?_, by decide, ?_, ?_⟩ <;>
    simp only [propagate_reward, propagateFrom, visitAt, setN, getN, edgeReward,
      Node.visit, Node.state?, Node.value_sum, stChance, stChance', mkE, mkC, diceGame] <;>
    norm_num

/-- C5 amended: what never receives reward is a node whose PARENT in the
backpropagation path is a Chance actor: along such an edge the child's
value_sum is unchanged (0 is added); only edges out of Player-actor nodes
accumulate value. -/
theorem chance_parent_child_value_unchanged (g : Game σ α) (st st' : Store σ α)
    (reward : List ℚ) (n0 : Nat) (rest : List Nat)
    (hprop : propagate_reward g st reward (n0 :: rest) = some st')
    (hpath : (n0 :: rest).Nodup)
    (i : Nat) (hi : i < rest.length)
    (s : σ)
    (hs : (getN st ((n0 :: rest).get ⟨i, by simpa using Nat.lt_succ_of_lt hi⟩)).state? = some s)
    (outs : List (α × Nat)) (houts : g.next_actor s = .GameAction outs) :
    (getN st' (rest.get ⟨i, hi⟩)).value_sum = (getN st (rest.get ⟨i, hi⟩)).value_sum := by
  have hprop' : propagateFrom g reward st n0 rest = some st' := hprop
  obtain ⟨s2, hs2, he⟩ :=
    propagateFrom_edge g reward rest st n0 st' hprop' (List.nodup_cons.1 hpath).2 i hi
  have hss : s2 = s := by
    rw [hs] at hs2
    exact (Option.some.inj hs2).symm
  rw [he, hss]
  have : edgeReward g reward s = 0 := by rw [edgeReward, houts]
  rw [this, visit_zero_value_sum]

/-- Chance-parent store for the C5 witness. -/
def stW5 : Store Nat Nat := [mkC 1 [(5, 1)] 0 0, mkE 0 [] 0 0]

/-- stW5 after propagating reward [3] along [0, 1]. -/
def stW5' : Store Nat Nat := [mkC 1 [(5, 1)] 0 0, mkE 0 [] 1 0]

/-- C5 witness: under the chance parent (node 0, state 1) the child's
value_sum is unchanged by the propagation. -/
theorem chance_parent_child_value_unchanged_witness :
    (getN stW5' 1).value_sum = (getN stW5 1).value_sum :=
  chance_parent_child_value_unchanged diceGame stW5 stW5' [3] 0 [1]
    (by
      simp only [propagate_reward, propagateFrom, visitAt, setN, getN, edgeReward,
        Node.visit, Node.state?, stW5, stW5', mkE, mkC, diceGame]
      norm_num)
    (by decide) 0 (by decide) 1 (by decide) [(5, 1), (7, 2)] (by decide)

/-- C2 counterexample: at parent visits N = 1, child statistics n = 2, w = 1,
exploration constant 1 and tiebreaker 0, instantiating the abstract sqrt and
ln so that they agree with the real functions at every evaluated point
(ln 1 = 0, sqrt 0 = 0), the code's chance-child UCB is 1/2 + k*u + r with
u = 0 — its q equals w/n = 1/2 — while the claim's formula with q = 1 gives
1 + k*u + r = 1. -/
theorem chance_ucb_q_not_one :
    child_ucb (fun x => x) (fun _ => 0) 1 true 1 2 1 0 0 = .val (1 / 2) ∧
    specChanceUcb (fun x => x) (fun _ => 0) 1 1 2 1 0 = 1 ∧
    ¬ ((1 : ℚ) / 2 = 1) := by
  refine ⟨?_, ?_, by norm_num⟩
  · simp only [child_ucb]
    norm_num
  · simp only [specChanceUcb]
    norm_num

/-- C2 amended: for an Expanded child with n > 0 visits and weight w > 0
under a chance (game-action) parent, the UCB computed during selection is
q + k*u + r with u = sqrt(ln(max(visits(P), 1)) / (n/w)) exactly as the claim
states, but with q = w/n (the value 1.0 divided by the scaled visit count
n/w), not q = 1. -/
theorem chance_ucb_formula (sq lq : ℚ → ℚ) (k : ℚ) (bigN n w : Nat) (vs r : ℚ)
    (hn : 0 < n) (hw : 0 < w) :
    child_ucb sq lq k true (max bigN 1) n w vs r =
      .val ((w : ℚ) / (n : ℚ) +
        k * sq (lq ((max bigN 1 : Nat) : ℚ) / ((n : ℚ) / (w : ℚ))) + r) := by
  have hnq : (0 : ℚ) < (n : ℚ) := by exact_mod_cast hn
  have hwq : (0 : ℚ) < (w : ℚ) := by exact_mod_cast hw
  have hvc : ¬ ((n : ℚ) / (w : ℚ) = 0) := ne_of_gt (div_pos hnq hwq)
  simp only [child_ucb, if_true]
  rw [if_neg hvc, one_div_div]

/-- C2 witness: the amended formula evaluated at N = 3, n = 2, w = 3, k = 2,
vs = 5, r = 1/7. -/
theorem chance_ucb_formula_witness :
    child_ucb (fun x : ℚ => x) (fun x : ℚ => x) 2 true (max 3 1) 2 3 5 (1 / 7) =
      .val (((3 : Nat) : ℚ) / ((2 : Nat) : ℚ) +
        2 * (((max 3 1 : Nat) : ℚ) / (((2 : Nat) : ℚ) / ((3 : Nat) : ℚ))) + 1 / 7) :=
  chance_ucb_formula (fun x : ℚ => x) (fun x : ℚ => x) 2 3 2 3 5 (1 / 7)
    (by decide) (by decide)

/-- Head of firstMaxQ is a maximal-score member of the scored list. -/
theorem firstMaxQ_spec (l : List (α × ℚ)) (m : α × ℚ) (h : firstMaxQ l = some m) :
    m ∈ l ∧ ∀ x ∈ l, x.2 ≤ m.2 := by
  cases l with
  | nil => exact absurd h (by simp [firstMaxQ])
  | cons x rest =>
      rw [firstMaxQ] at h
      have hm := Option.some.inj h
      obtain ⟨hmem, hx, hall⟩ := firstMaxQ_fold_spec rest x
      rw [hm] at hmem hx hall
      refine ⟨hmem, ?_⟩
      intro z hz
      rcases List.mem_cons.1 hz with hzx | hzr
      · rw [hzx]; exact hx
      · exact hall z hzr

/-- Root-children store for the C6 counterexample: child 0 visited once with
value −1, child 1 never visited. -/
def stC6 : Store Nat Nat := [mkE 0 [] 1 (-1), mkE 0 [] 0 0]

/-- C6 counterexample: under the Ucb0 (MeanValue) policy, the zero-visit
child scores value_sum/∞ = 0, not −∞, so action 9 (zero visits) is preferred
over action 7 whose visited child has mean −1. -/
theorem ucb0_zero_visit_child_preferred :
    ucb0_pick stC6 [(7, 0), (9, 1)] = some 9 ∧
    (getN stC6 1).visit_count = 0 ∧ 0 < (getN stC6 0).visit_count := by
  refine ⟨?_, by decide, by decide⟩
  norm_num [ucb0_pick, ucb0_picks, ucb0_score, firstMaxQ, getN, stC6, mkE,
    Node.visit_count, Node.value_sum]

/-- C6 amended: the Ucb0 (MeanValue) policy returns an action whose child's
score is maximal, where a visited child scores value_sum/visit_count and a
zero-visit child scores value_sum/∞ = 0 (not −∞): a zero-visit child CAN be
preferred over a visited child with negative mean. -/
theorem ucb0_pick_returns_max_score (st : Store σ α) (children : List (α × Nat))
    (a : α) (h : ucb0_pick st children = some a) :
    ∃ cid, (a, cid) ∈ children ∧
      ∀ p ∈ children, ucb0_score (getN st p.2) ≤ ucb0_score (getN st cid) := by
  rw [ucb0_pick] at h
  cases hm : firstMaxQ (ucb0_picks st children) with
  | none => rw [hm] at h; exact absurd h (by simp)
  | some m =>
      rw [hm] at h
      have ha : m.1 = a := by simpa using h
      obtain ⟨hmem, hmax⟩ := firstMaxQ_spec _ m hm
      rw [ucb0_picks] at hmem
      obtain ⟨ac, hac, hacm⟩ := List.mem_map.1 hmem
      have h2 : ucb0_score (getN st ac.2) = m.2 := by rw [← hacm]
      have h1 : ac.1 = a := by rw [← ha, ← hacm]
      refine ⟨ac.2, ?_, ?_⟩
      · rw [← h1]
        simpa using hac
      · intro p hp
        have hpm : (p.1, ucb0_score (getN st p.2)) ∈ ucb0_picks st children :=
          List.mem_map.2 ⟨p, hp, rfl⟩
        have hscore := hmax _ hpm
        rw [← h2] at hscore
        exact hscore

/-- Root-children store for the C6 witness. -/
def stC6w : Store Nat Nat := [mkE 0 [] 2 3, mkE 0 [] 1 1]

/-- C6 witness: in stC6w the policy picks action 4, whose child's mean 3/2 is
maximal. -/
theorem ucb0_pick_returns_max_score_witness :
    ∃ cid, ((4 : Nat), cid) ∈ [((4 : Nat), (0 : Nat)), (6, 1)] ∧
      ∀ p ∈ [((4 : Nat), (0 : Nat)), (6, 1)],
        ucb0_score (getN stC6w p.2) ≤ ucb0_score (getN stC6w cid) :=
  ucb0_pick_returns_max_score stC6w [(4, 0), (6, 1)] 4 (by
    norm_num [ucb0_pick, ucb0_picks, ucb0_score, firstMaxQ, getN, stC6w, mkE,
      Node.visit_count, Node.value_sum])

/-- C4: code evaluated at the failing input. With time limit 10, iteration
budget 1000 and four passes each lasting 6 time units, the worker loop as
written runs all four passes — each pass's own duration 6 never exceeds 10
because the timer is reset at the top of every pass — while the claimed
behaviour (compare wall-clock elapsed since the search started) stops after
the second pass, when 12 > 10. -/
theorem worker_time_check_uses_iteration_clock :
    worker_iterations 1000 (some 10) 0 [(6, false), (6, false), (6, false), (6, false)] = 4 ∧
    spec_worker_iterations 1000 (some 10) 0 0
      [(6, false), (6, false), (6, false), (6, false)] = 2 := by
  constructor
  · norm_num [worker_iterations, loop_break]
  · norm_num [spec_worker_iterations, loop_break]

/-- Store produced by expanding selection [0] from a fresh lineGame root
(root state 2 at id 2; the Placeholder child for action 0 is replaced in the
root's children map by the newly allocated Expanded node id 5, state 1, while
the stale cell id 0 still holds the old Placeholder). -/
def stC1' : Store Nat Nat :=
  [.Placeholder none, .Placeholder none, mkE 2 [(0, 5), (1, 1)] 0 0,
   .Placeholder none, .Placeholder none, mkE 1 [(0, 3), (1, 4)] 0 0]

/-- C1: code evaluated at the failing input. Expanding the selection path
[action 0] from a fresh root returns the node list [2, 2] — the root id
twice — so the list ends with the PARENT of the newly expanded node (id 5,
state 1 = execute 0 2), which is not in the list at all, and Tree::iterate
hands play_out the root's state 2 rather than the new node's state 1. -/
theorem expansion_ends_at_parent_not_new_node :
    expansion lineGame (createExpandedNode lineGame [] 2 none).1 2 [0] =
      some (stC1', [2, 2]) ∧
    [2, 2].getLast? = some 2 ∧
    (getN stC1' 5).state? = some (lineGame.execute 0 2) ∧
    (5 : Nat) ∉ [2, 2] ∧
    iterate_playout_state lineGame (createExpandedNode lineGame [] 2 none).1 2 [0] =
      some 2 ∧
    ¬ lineGame.execute 0 2 = 2 := by decide

/-- C7: when the freshly created root has exactly one child, the search
driver returns that child's action immediately with zero completed search
iterations, whatever the iteration budget, time limit, thread count, policy,
exploration constant, fuel or random and clock streams. -/
theorem calculate_best_turn_single_child (g : Game σ α) [DecidableEq α]
    (sq lq : ℚ → ℚ) (iterations : Nat) (tl : Option ℚ) (thread_count : Nat)
    (s : σ) (policy : BestTurnPolicy) (constant : ℚ) (ifuel lfuel : Nat)
    (rng : List Nat) (times : List ℚ) (a : α) (w : Option Nat)
    (hcs : childSpecs g s = [(a, w)]) :
    calculate_best_turn g sq lq iterations tl thread_count s policy constant
      ifuel lfuel rng times = some (a, 0) := by
  have hroot : getN (createExpandedNode g [] s none).1 (createExpandedNode g [] s none).2 =
      .Expanded ⟨s, [(a, 0)], 0, 0, none, none, isGameActionB g s, none⟩ := by
    simp only [createExpandedNode, hcs]
    simp [getN]
  simp only [calculate_best_turn]
  rw [hroot]
  simp

/-- C7 witness: soloGame (one permitted action, 7) returns action 7 with zero
iterations under an iteration budget of 100 and four threads. -/
theorem calculate_best_turn_single_child_witness :
    calculate_best_turn soloGame (fun x : ℚ => x) (fun x : ℚ => x) 100 none 4 0
      .MostVisits 1 5 5 [] [] = some (7, 0) :=
  calculate_best_turn_single_child soloGame (fun x : ℚ => x) (fun x : ℚ => x)
    100 none 4 0 .MostVisits 1 5 5 [] [] 7 none (by decide)

end Mon2y
